import Mathlib

/-!
A verification development for `romjak.c`, a tool that splits one linear
binary image into several ROM images (interleaved across ROMs, grouped in
banks, padded / repeated with `0xFF` up to a padding window).

The C program is embedded shallowly:

* machine integers become `Nat` (all quantities involved are non-negative;
  the C `%` and `/` on non-negative `int` agree with `Nat.mod` / `Nat.div`);
* the input file becomes a `List Nat` of its bytes, the file position of
  the `FILE *` handle becomes an explicit `Nat` threaded through the copy
  loop, `rewind` sets it to `0`, and `fread(data, stride, 1, input)`
  deposits `min stride (inputsize - pos)` bytes and advances the position
  by that amount (short reads leave the `0xFF`-prefilled tail of the
  buffer untouched, and the C code ignores the return value of `fread`);
* each output file becomes the list of bytes written to it, in order.

The triple copy loop of `main` (bank by bank / row by row / ROM by ROM) is
embedded as a fold of a step function over the list of its iterations.
The C `for (pos_bank = 0; pos_bank < banksz; pos_bank += romsperbank*stride)`
loop runs forever when the step is `0` (only possible when `stride = 0` or
`romsperbank = 0`); the embedding gives that degenerate loop zero
iterations, and every theorem that needs the loop to terminate carries a
`0 < stride` hypothesis.
-/

namespace Romjak

/-- Constant `#define MAXROMS 16` (romjak.c line 10). -/
def MAXROMS : Nat := 16

/-- Constant `#define MAXROMWIDTH 32` (romjak.c line 11). -/
def MAXROMWIDTH : Nat := 32

/-- Constant `#define MAXSTRIDE (MAXROMWIDTH/8)` (romjak.c line 12). -/
def MAXSTRIDE : Nat := MAXROMWIDTH / 8

/-- Constant `#define MAXBANKS 4` (romjak.c line 13). -/
def MAXBANKS : Nat := 4

/-- Constant `#define MAXROMSPERBANK (MAXROMS/MAXBANKS)` (romjak.c line 14). -/
def MAXROMSPERBANK : Nat := MAXROMS / MAXBANKS

/-- The five configuration integers `main` works with after argument
parsing (romjak.c lines 87-101).  `paduptosize` defaults to
`romsize * numroms` and `rombanks` to `1`, `romwidth` to `8`; the
defaults are applied by the (out of scope) CLI layer, so a `Config`
here always carries the final values. -/
structure Config where
  numroms : Nat
  romwidth : Nat
  romsize : Nat
  rombanks : Nat
  paduptosize : Nat
deriving DecidableEq

/-- Source line `int totalsz = romsize * numroms;` (line 89). -/
def totalsz (c : Config) : Nat := c.romsize * c.numroms

/-- Source line `int romsperbank = numroms / rombanks;` (line 140). -/
def romsperbank (c : Config) : Nat := c.numroms / c.rombanks

/-- Source line `int banksz = romsize * romsperbank;` (line 141). -/
def banksz (c : Config) : Nat := c.romsize * romsperbank c

/-- Source line `int stride = romwidth / 8;` (line 143). -/
def stride (c : Config) : Nat := c.romwidth / 8

/-- Source line `int repeats = romsize / paduptosize;` (line 144). -/
def repeats (c : Config) : Nat := c.romsize / c.paduptosize

/-- The validation chain of `main` (romjak.c lines 105-137), in source
order, with the messages it prints before `exit(1)`.  (The `romsize %
paduptosize` check at lines 120-126 is compiled out with `#if 0` and is
therefore not part of the embedding.) -/
def checkConfig (c : Config) : Except String Unit :=
  if c.rombanks > MAXBANKS then .error "Sorry, too many banks"
  else if c.romwidth % 8 ≠ 0 then .error "ROM width needs to be a multiple of 8"
  else if c.romwidth > MAXROMWIDTH then .error "ROM width is too big"
  else if c.numroms % c.rombanks ≠ 0 then
    .error "number of ROMs must be a multiple of number of banks"
  else if c.numroms > MAXROMS then .error "Sorry, too many ROMs"
  else .ok ()

/-- A configuration is accepted when the validation chain falls through
to the copy phase. -/
def validConfig (c : Config) : Prop := checkConfig c = .ok ()

instance (c : Config) : Decidable (validConfig c) :=
  match h : checkConfig c with
  | .ok () => isTrue h
  | .error _ => isFalse (by
      intro hc; unfold validConfig at hc; rw [h] at hc; exact Except.noConfusion hc)

/-- The output file name built by `sprintf` at romjak.c lines 157-166:
`"%s.%d"` of the ROM index when there is a single bank, and
`"%s.%d.%d"` of the bank and ROM indices otherwise. -/
def output_name (base : String) (c : Config) (b r : Nat) : String :=
  if c.rombanks = 1 then base ++ "." ++ toString r
  else base ++ "." ++ toString b ++ "." ++ toString r

/-- The increment of the row loop, `romsperbank * stride` (line 208). -/
def rowStep (c : Config) : Nat := romsperbank c * stride c

/-- Number of iterations of `for (pos_bank = 0; pos_bank < banksz;
pos_bank += romsperbank * stride)` (line 208), i.e. `⌈banksz / rowStep⌉`.
When the increment is `0` the C loop never terminates (and never writes
a complete output); the embedding gives it zero iterations and theorems
about completed runs assume `0 < stride`. -/
def numRows (c : Config) : Nat :=
  if rowStep c = 0 then 0 else (banksz c + rowStep c - 1) / rowStep c

/-- One iteration of the copy loop: the bank index `this_bank`, the ROM
index `this_rom`, and the absolute position
`pos_abs = this_bank*banksz + pos_bank + this_rom*stride` (line 216). -/
def mkIter (c : Config) (b k r : Nat) : Nat × Nat × Nat :=
  (b, r, b * banksz c + k * rowStep c + r * stride c)

/-- All iterations of the triple copy loop (romjak.c lines 206-233), in
execution order: bank-major, row-major, ROM-minor. -/
def iterList (c : Config) : List (Nat × Nat × Nat) :=
  (List.range c.rombanks).flatMap fun b =>
    (List.range (numRows c)).flatMap fun k =>
      (List.range (romsperbank c)).map fun r => mkIter c b k r

/-- The body of the copy loop (romjak.c lines 211-232), iterated over a
list of loop iterations, threading the input file position `fp`.
For each iteration it records the iteration together with the
stride-sized buffer that `fwrite` sends to output `(this_bank, this_rom)`:
the buffer is `memset` to `0xff`, then, when `pos_repeat < inputsize`,
`fread` overwrites its leading bytes with the next
`min stride (inputsize - fp)` input bytes (after the `rewind` performed
when `pos_repeat == 0`). -/
def traceAux (input : List Nat) (stride pad : Nat) :
    List (Nat × Nat × Nat) → Nat → List ((Nat × Nat × Nat) × List Nat)
  | [], _ => []
  | it :: rest, fp =>
    let pr := it.2.2 % pad
    let fp0 := if pr = 0 then 0 else fp
    let d := if pr < input.length then (input.drop fp0).take stride else []
    (it, d ++ List.replicate (stride - d.length) 255) ::
      traceAux input stride pad rest (fp0 + d.length)

/-- The complete run of the copy loop: the input position starts at `0`
(the `rewind(input)` at line 191 follows the size probe). -/
def runTrace (c : Config) (input : List Nat) : List ((Nat × Nat × Nat) × List Nat) :=
  traceAux input (stride c) c.paduptosize (iterList c) 0

/-- The bytes written to output `(b, r)`, in order: outputs are written
strictly sequentially, so the file contents are the concatenation of the
stride buffers of the iterations with `this_bank = b`, `this_rom = r`. -/
def slotBytes (c : Config) (input : List Nat) (b r : Nat) : List Nat :=
  (((runTrace c input).filter fun e => e.1.1 == b && e.1.2.1 == r).map
    fun e => e.2).flatten

/-- The bank/ROM pair an iteration writes to. -/
def iterKey (b r : Nat) : Nat × Nat × Nat → Bool := fun it =>
  it.1 == b && it.2.1 == r

/-- Closed form of the stride buffer written at absolute position `pos`,
valid when `stride` divides both `pad` and `romsize` (proved below in
`runTrace_spec`): byte `i` of the buffer is the input byte at offset
`pos % pad + i` when that offset is inside the input, and the `0xFF`
padding byte otherwise. -/
def mkSpec (input : List Nat) (stride pad pos : Nat) : List Nat :=
  (List.range stride).map fun i =>
    if pos % pad + i < input.length then input.getD (pos % pad + i) 0 else 255

/-! ### Structural lemmas about the copy loop -/

/-- The copy loop performs exactly the planned iterations, in order,
whatever the input and the file position: the loop body contains no exit
path (the C code never tests the results of `fread`/`fwrite`). -/
theorem traceAux_map_fst (input : List Nat) (stride pad : Nat) :
    ∀ (l : List (Nat × Nat × Nat)) (fp : Nat),
      (traceAux input stride pad l fp).map Prod.fst = l := by
  intro l
  induction l with
  | nil => intro fp; rfl
  | cons it rest ih =>
      intro fp
      simp only [traceAux, List.map_cons, ih]

theorem length_traceAux (input : List Nat) (stride pad : Nat)
    (l : List (Nat × Nat × Nat)) (fp : Nat) :
    (traceAux input stride pad l fp).length = l.length := by
  have h := congrArg List.length (traceAux_map_fst input stride pad l fp)
  simp only [List.length_map] at h
  exact h

/-- Every buffer written by the loop body has exactly `stride` bytes:
it is `memset` to `stride` bytes of `0xFF` and `fread` only overwrites
leading bytes. -/
theorem block_length (input : List Nat) (stride pad : Nat) :
    ∀ (l : List (Nat × Nat × Nat)) (fp : Nat),
      ∀ e ∈ traceAux input stride pad l fp, e.2.length = stride := by
  intro l
  induction l with
  | nil => intro fp e he; cases he
  | cons it rest ih =>
      intro fp e he
      simp only [traceAux, List.mem_cons] at he
      rcases he with he | he
      · subst he
        simp only [List.length_append, List.length_replicate]
        have hd : (if it.2.2 % pad < input.length then
            (input.drop (if it.2.2 % pad = 0 then 0 else fp)).take stride
            else []).length ≤ stride := by
          split
          · simp
          · simp
        omega
      · exact ih _ e he

theorem slotBytes_length_eq_countP (c : Config) (input : List Nat) (b r : Nat) :
    (slotBytes c input b r).length =
      (iterList c).countP (iterKey b r) * stride c := by
  unfold slotBytes
  rw [List.length_flatten, List.map_map]
  have hconst : ∀ e ∈ (runTrace c input).filter (fun e => e.1.1 == b && e.1.2.1 == r),
      (List.length ∘ fun e => e.2) e = stride c := by
    intro e he
    exact block_length input (stride c) c.paduptosize (iterList c) 0 e
      (List.mem_filter.mp he).1
  rw [List.map_congr_left hconst, List.map_const', List.sum_replicate, smul_eq_mul]
  congr 1
  rw [← List.countP_eq_length_filter]
  have : (runTrace c input).countP (fun e => e.1.1 == b && e.1.2.1 == r) =
      ((runTrace c input).map Prod.fst).countP (iterKey b r) := by
    rw [List.countP_map]; rfl
  rw [this]; unfold runTrace; rw [traceAux_map_fst]

theorem countP_flatMap {α β : Type} (p : β → Bool) (l : List α) (f : α → List β) :
    (l.flatMap f).countP p = (l.map fun a => (f a).countP p).sum := by
  rw [List.flatMap_def, List.countP_flatten, List.map_map]; rfl

theorem sum_map_ite_eq (l : List Nat) (b K : Nat) (hn : l.Nodup) (hb : b ∈ l) :
    (l.map fun x => if x = b then K else 0).sum = K := by
  induction l with
  | nil => cases hb
  | cons a t ih =>
      simp only [List.map_cons, List.sum_cons]
      rcases List.mem_cons.mp hb with h | h
      · have ha : a = b := h.symm
        subst ha
        simp only [if_pos rfl]
        have hz : ∀ x ∈ t, (if x = a then K else 0) = 0 := by
          intro x hx
          have hxa : x ≠ a := by
            intro he; subst he; exact (List.nodup_cons.mp hn).1 hx
          simp [hxa]
        rw [List.map_congr_left hz, List.map_const', List.sum_replicate]
        simp
      · have ha : a ≠ b := by
          intro he; subst he; exact (List.nodup_cons.mp hn).1 h
        rw [if_neg ha, Nat.zero_add]
        exact ih (List.nodup_cons.mp hn).2 h

theorem countP_row (c : Config) (b r b' k : Nat) (hr : r < romsperbank c) :
    (((List.range (romsperbank c)).map fun r' => mkIter c b' k r').countP
      (iterKey b r)) = if b' = b then 1 else 0 := by
  rw [List.countP_map]
  by_cases hb : b' = b
  · subst hb
    have hfun : (iterKey b' r ∘ fun r' => mkIter c b' k r') = fun r' => r' == r := by
      funext r'; simp [iterKey, mkIter]
    rw [hfun, if_pos rfl]
    exact List.count_eq_one_of_mem (List.nodup_range (romsperbank c))
      (List.mem_range.mpr hr)
  · rw [if_neg hb]
    apply List.countP_eq_zero.mpr
    intro r' _
    simp [iterKey, mkIter, hb]

theorem countP_bank (c : Config) (b r b' : Nat) (hr : r < romsperbank c) :
    (((List.range (numRows c)).flatMap fun k =>
        (List.range (romsperbank c)).map fun r' => mkIter c b' k r').countP
      (iterKey b r)) = if b' = b then numRows c else 0 := by
  rw [countP_flatMap]
  have hrow : ∀ k ∈ List.range (numRows c),
      (((List.range (romsperbank c)).map fun r' => mkIter c b' k r').countP
        (iterKey b r)) = if b' = b then 1 else 0 := by
    intro k _; exact countP_row c b r b' k hr
  rw [List.map_congr_left hrow, List.map_const', List.sum_replicate, smul_eq_mul]
  by_cases hb : b' = b <;> simp [hb]

theorem countP_iterList (c : Config) (b r : Nat) (hb : b < c.rombanks)
    (hr : r < romsperbank c) :
    (iterList c).countP (iterKey b r) = numRows c := by
  unfold iterList
  rw [countP_flatMap]
  have hbank : ∀ b' ∈ List.range c.rombanks,
      (((List.range (numRows c)).flatMap fun k =>
          (List.range (romsperbank c)).map fun r' => mkIter c b' k r').countP
        (iterKey b r)) = if b' = b then numRows c else 0 := by
    intro b' _; exact countP_bank c b r b' hr
  rw [List.map_congr_left hbank]
  exact sum_map_ite_eq _ b _ (List.nodup_range _) (List.mem_range.mpr hb)

/-- The number of iterations of the row loop, expressed through exact
division when `romsperbank * stride` divides `banksz`. -/
theorem numRows_eq (c : Config) (q : Nat) (hstep : 0 < rowStep c)
    (hq : banksz c = rowStep c * q) : numRows c = q := by
  unfold numRows
  rw [if_neg (Nat.pos_iff_ne_zero.mp hstep), hq]
  have h1 : rowStep c * q + rowStep c - 1 = (rowStep c - 1) + rowStep c * q := by
    omega
  rw [h1, Nat.add_mul_div_left _ _ hstep, Nat.div_eq_of_lt (by omega)]
  omega

/-! ### The list of absolute positions

When `stride` divides `romsize` the row loop covers each bank exactly
and the absolute positions `pos_abs` of the successive loop iterations
are `0, stride, 2*stride, …` without gap or overlap. -/

theorem map_range_affine (a s n : Nat) :
    (List.range n).map (fun r => a + r * s) = List.range' a n s := by
  induction n generalizing a with
  | zero => rfl
  | succ m ih =>
      rw [List.range_succ_eq_map, List.map_cons, List.map_map]
      have hfun : ((fun r => a + r * s) ∘ Nat.succ) = fun r => (a + s) + r * s := by
        funext r; simp [Nat.succ_mul]; omega
      rw [hfun, ih (a + s)]
      simp [List.range']

theorem flatMap_range_range' (B n step a : Nat) :
    ((List.range B).flatMap fun b => List.range' (a + step * (b * n)) n step) =
      List.range' a (B * n) step := by
  induction B with
  | zero => simp [List.range']
  | succ m ih =>
      rw [List.range_succ, List.flatMap_append, ih]
      have h1 : (List.flatMap [m] fun b => List.range' (a + step * (b * n)) n step) =
          List.range' (a + step * (m * n)) n step := by
        simp
      rw [h1, List.range'_append]
      have h2 : (m + 1) * n = n + m * n := by ring
      rw [h2]

theorem flatMap_congr_left {α β : Type} (l : List α) {f g : α → List β}
    (h : ∀ a ∈ l, f a = g a) : l.flatMap f = l.flatMap g := by
  rw [List.flatMap_def, List.flatMap_def]
  exact congrArg List.flatten (List.map_congr_left h)

/-- Under `stride ∣ romsize` (and termination of the row loop) every bank
is tiled exactly: `banksz = stride * (numRows * romsperbank)`. -/
theorem banksz_tiled (c : Config) (hs : 0 < stride c) (hdr : stride c ∣ c.romsize) :
    banksz c = stride c * (numRows c * romsperbank c) := by
  rcases Nat.eq_zero_or_pos (romsperbank c) with hR | hR
  · unfold banksz; rw [hR]; simp
  · obtain ⟨q, hq⟩ := hdr
    have hstep : 0 < rowStep c := Nat.mul_pos hR hs
    have hb : banksz c = rowStep c * q := by
      unfold banksz rowStep; rw [hq]; ring
    rw [numRows_eq c q hstep hb, hb]
    unfold rowStep
    ring

/-- The absolute positions visited by the loop, in execution order: the
arithmetic progression `0, stride, 2*stride, …` of length
`rombanks * numRows * romsperbank`. -/
theorem iterList_pos_chain (c : Config) (hs : 0 < stride c)
    (hdr : stride c ∣ c.romsize) :
    (iterList c).map (fun it => it.2.2) =
      List.range' 0 (c.rombanks * (numRows c * romsperbank c)) (stride c) := by
  unfold iterList
  rw [List.map_flatMap]
  have hbank : ∀ b ∈ List.range c.rombanks,
      (List.map (fun it => it.2.2) ((List.range (numRows c)).flatMap fun k =>
        (List.range (romsperbank c)).map fun r => mkIter c b k r)) =
      List.range' (0 + stride c * (b * (numRows c * romsperbank c)))
        (numRows c * romsperbank c) (stride c) := by
    intro b _
    rw [List.map_flatMap]
    have hrow : ∀ k ∈ List.range (numRows c),
        (List.map (fun it => it.2.2)
          ((List.range (romsperbank c)).map fun r => mkIter c b k r)) =
        List.range' (b * banksz c + stride c * (k * romsperbank c))
          (romsperbank c) (stride c) := by
      intro k _
      rw [List.map_map]
      have hfun : ((fun it : Nat × Nat × Nat => it.2.2) ∘ fun r => mkIter c b k r) =
          fun r => (b * banksz c + k * rowStep c) + r * stride c := by
        funext r; simp [mkIter]
      rw [hfun, map_range_affine]
      have harg : b * banksz c + k * rowStep c =
          b * banksz c + stride c * (k * romsperbank c) := by
        unfold rowStep; ring
      rw [harg]
    rw [flatMap_congr_left _ hrow,
      flatMap_range_range' (numRows c) (romsperbank c) (stride c) (b * banksz c)]
    have harg2 : b * banksz c = 0 + stride c * (b * (numRows c * romsperbank c)) := by
      rw [banksz_tiled c hs hdr]; ring
    rw [harg2]
  rw [flatMap_congr_left _ hbank,
    flatMap_range_range' c.rombanks (numRows c * romsperbank c) (stride c) 0]

/-! ### The padding invariant -/

theorem add_mod_le_mod_add (a b n : Nat) : (a + b) % n ≤ a % n + b := by
  rcases Nat.eq_zero_or_pos n with h | h
  · subst h; simp
  · calc (a + b) % n = (a % n + b % n) % n := by rw [Nat.add_mod]
      _ ≤ a % n + b % n := Nat.mod_le _ _
      _ ≤ a % n + b := by have := Nat.mod_le b n; omega

/-- Padding invariant of the copy loop, the `0xFF` direction.  Along any run of
iterations whose absolute positions advance by exactly `stride` per
iteration (starting from iteration index `t0`), the input file position
never falls behind `pos_repeat` while input bytes remain, so every
written byte whose own absolute position has `pos % pad ≥ inputsize`
comes from the `memset` and equals `0xFF`. -/
theorem traceAux_padding (input : List Nat) (stride pad : Nat) :
    ∀ (l : List (Nat × Nat × Nat)) (n t0 fp : Nat),
      l.map (fun it => it.2.2) = List.range' (t0 * stride) n stride →
      fp ≤ input.length →
      (t0 * stride % pad = 0 ∨ min (t0 * stride % pad) input.length ≤ fp) →
      ∀ e ∈ traceAux input stride pad l fp, ∀ i < stride,
        input.length ≤ (e.1.2.2 + i) % pad → e.2.getD i 0 = 255 := by
  intro l
  induction l with
  | nil => intro n t0 fp _ _ _ e he; cases he
  | cons it rest ih =>
      intro n t0 fp hchain hfp1 hfp2 e he i hi hpadreg
      cases n with
      | zero => exact absurd hchain (by simp [List.range'])
      | succ m =>
        rw [show List.range' (t0 * stride) (m + 1) stride =
              (t0 * stride) :: List.range' (t0 * stride + stride) m stride from rfl,
            List.map_cons] at hchain
        simp only [List.cons.injEq] at hchain
        obtain ⟨hpos, hrest⟩ := hchain
        -- abbreviations matching the loop body
        have hblk : traceAux input stride pad (it :: rest) fp =
            (it, (if it.2.2 % pad < input.length then
                (input.drop (if it.2.2 % pad = 0 then 0 else fp)).take stride
              else []) ++
              List.replicate (stride - (if it.2.2 % pad < input.length then
                (input.drop (if it.2.2 % pad = 0 then 0 else fp)).take stride
              else []).length) 255) ::
            traceAux input stride pad rest
              ((if it.2.2 % pad = 0 then 0 else fp) +
               (if it.2.2 % pad < input.length then
                (input.drop (if it.2.2 % pad = 0 then 0 else fp)).take stride
              else []).length) := rfl
        rw [hblk] at he
        rw [← hpos] at hfp2
        -- the step facts shared by both the head and the tail case
        have hfp0le : (if it.2.2 % pad = 0 then 0 else fp) ≤ input.length := by
          split
          · exact Nat.zero_le _
          · exact hfp1
        have hfp0ge : it.2.2 % pad < input.length →
            it.2.2 % pad ≤ (if it.2.2 % pad = 0 then 0 else fp) := by
          intro hrd
          split
          · omega
          · rename_i hne
            rcases hfp2 with h0 | hmin
            · exact absurd h0 hne
            · omega
        rcases List.mem_cons.mp he with he | he
        · -- head entry
          subst he
          dsimp only at hpadreg ⊢
          by_cases hrd : it.2.2 % pad < input.length
          · rw [if_pos hrd]
            by_cases hird : i < ((input.drop (if it.2.2 % pad = 0 then 0 else fp)).take
                stride).length
            · -- a byte really read from the input: its position is below
              -- the padding region, contradiction
              exfalso
              have h1 := hfp0ge hrd
              have h2 : ((input.drop (if it.2.2 % pad = 0 then 0 else fp)).take
                  stride).length =
                  min stride (input.length - (if it.2.2 % pad = 0 then 0 else fp)) := by
                simp [List.length_take, List.length_drop]
              have h3 : (it.2.2 + i) % pad ≤ it.2.2 % pad + i :=
                add_mod_le_mod_add it.2.2 i pad
              omega
            · -- a byte from the 0xFF memset
              have hlen : (((input.drop (if it.2.2 % pad = 0 then 0 else fp)).take
                  stride) ++ List.replicate (stride -
                    ((input.drop (if it.2.2 % pad = 0 then 0 else fp)).take
                      stride).length) 255).length = stride := by
                simp only [List.length_append, List.length_replicate]
                have := List.length_take_le stride
                  (input.drop (if it.2.2 % pad = 0 then 0 else fp))
                omega
              rw [List.getD_eq_getElem _ _ (by omega : i < _), List.getElem_append]
              rw [dif_neg hird]
              exact List.getElem_replicate _ _
          · rw [if_neg hrd]
            simp only [List.nil_append, List.length_nil, Nat.sub_zero]
            rw [List.getD_eq_getElem _ _ (by simp [hi] : i < _)]
            exact List.getElem_replicate _ _
        · -- tail: re-establish the invariant for iteration t0 + 1
          have hrest' : rest.map (fun it => it.2.2) =
              List.range' ((t0 + 1) * stride) m stride := by
            rw [hrest]; congr 1; ring
          have hprsucc : (t0 + 1) * stride % pad ≤ it.2.2 % pad + stride := by
            calc (t0 + 1) * stride % pad = (it.2.2 + stride) % pad := by
                  rw [hpos]; congr 1; ring
              _ ≤ it.2.2 % pad + stride := add_mod_le_mod_add it.2.2 stride pad
          refine ih m (t0 + 1) _ hrest' ?_ ?_ e he i hi hpadreg
          · -- new file position still within the input
            by_cases hrd : it.2.2 % pad < input.length
            · rw [if_pos hrd]
              simp only [List.length_take, List.length_drop]
              omega
            · rw [if_neg hrd]
              simpa using hfp0le
          · -- the new file position is at least min(pos_repeat, inputsize)
            right
            by_cases hrd : it.2.2 % pad < input.length
            · rw [if_pos hrd]
              have h1 := hfp0ge hrd
              simp only [List.length_take, List.length_drop]
              omega
            · rw [if_neg hrd]
              simp only [List.length_nil, Nat.add_zero]
              split
              · -- pos_repeat = 0 and nothing to read: the input is empty
                rename_i h0
                omega
              · rename_i hne
                rcases hfp2 with h0 | hmin
                · exact absurd h0 hne
                · omega

/-! ### Exact characterization of the copy loop under divisibility -/

theorem traceAux_spec (input : List Nat) (stride pad : Nat)
    (hs : 0 < stride) (hpad : 0 < pad) (hdvd : stride ∣ pad) :
    ∀ (l : List (Nat × Nat × Nat)) (n t0 fp : Nat),
      l.map (fun it => it.2.2) = List.range' (t0 * stride) n stride →
      (t0 * stride % pad = 0 ∨ fp = min (t0 * stride % pad) input.length) →
      traceAux input stride pad l fp =
        l.map fun it => (it, mkSpec input stride pad it.2.2) := by
  intro l
  induction l with
  | nil => intro n t0 fp _ _; rfl
  | cons it rest ih =>
      intro n t0 fp hchain hfp
      cases n with
      | zero => exact absurd hchain (by simp [List.range'])
      | succ m =>
        rw [show List.range' (t0 * stride) (m + 1) stride =
              (t0 * stride) :: List.range' (t0 * stride + stride) m stride from rfl,
            List.map_cons] at hchain
        simp only [List.cons.injEq] at hchain
        obtain ⟨hpos, hrest⟩ := hchain
        rw [← hpos] at hfp
        -- arithmetic facts about pos_repeat
        have hdvd_pr : stride ∣ it.2.2 % pad := by
          rw [Nat.dvd_mod_iff hdvd, hpos]
          exact Dvd.intro t0 (Nat.mul_comm stride t0)
        have hprlt : it.2.2 % pad < pad := Nat.mod_lt _ hpad
        have hprstride : it.2.2 % pad + stride ≤ pad := by
          have hd : stride ∣ pad - it.2.2 % pad := Nat.dvd_sub' hdvd hdvd_pr
          have := Nat.le_of_dvd (by omega) hd
          omega
        have hfp0 : (if it.2.2 % pad = 0 then 0 else fp) =
            min (it.2.2 % pad) input.length := by
          split
          · rename_i h0; rw [h0]; simp
          · rename_i hne
            rcases hfp with h0 | hval
            · exact absurd h0 hne
            · exact hval
        have hblk : traceAux input stride pad (it :: rest) fp =
            (it, (if it.2.2 % pad < input.length then
                (input.drop (if it.2.2 % pad = 0 then 0 else fp)).take stride
              else []) ++
              List.replicate (stride - (if it.2.2 % pad < input.length then
                (input.drop (if it.2.2 % pad = 0 then 0 else fp)).take stride
              else []).length) 255) ::
            traceAux input stride pad rest
              ((if it.2.2 % pad = 0 then 0 else fp) +
               (if it.2.2 % pad < input.length then
                (input.drop (if it.2.2 % pad = 0 then 0 else fp)).take stride
              else []).length) := rfl
        rw [hblk, List.map_cons]
        have hmodsucc : (it.2.2 + stride) % pad = (it.2.2 % pad + stride) % pad := by
          conv_lhs => rw [show it.2.2 + stride =
            it.2.2 % pad + stride + pad * (it.2.2 / pad) by
              have := Nat.div_add_mod it.2.2 pad; omega]
          rw [Nat.add_mul_mod_self_left]
        congr 1
        · -- the head buffer equals its closed form
          congr 1
          by_cases hrd : it.2.2 % pad < input.length
          · rw [if_pos hrd, hfp0]
            have hminpr : min (it.2.2 % pad) input.length = it.2.2 % pad := by omega
            rw [hminpr]
            have hdlen : ((input.drop (it.2.2 % pad)).take stride).length =
                min stride (input.length - it.2.2 % pad) := by
              simp [List.length_take, List.length_drop]
            apply List.ext_getElem
            · simp only [List.length_append, List.length_replicate, mkSpec,
                List.length_map, List.length_range]
              omega
            · intro j hj1 hj2
              simp only [mkSpec, List.length_map, List.length_range] at hj2
              rw [List.getElem_append]
              simp only [mkSpec, List.getElem_map, List.getElem_range]
              split
              · rename_i hjd
                rw [List.getElem_take, List.getElem_drop]
                rw [if_pos (by omega : it.2.2 % pad + j < input.length)]
                rw [List.getD_eq_getElem _ _ (by omega)]
              · rename_i hjd
                rw [List.getElem_replicate]
                rw [if_neg (by omega : ¬ it.2.2 % pad + j < input.length)]
          · rw [if_neg hrd]
            simp only [List.nil_append, List.length_nil, Nat.sub_zero]
            apply List.ext_getElem
            · simp [mkSpec]
            · intro j hj1 hj2
              rw [List.getElem_replicate]
              simp only [mkSpec, List.getElem_map, List.getElem_range]
              rw [if_neg (by simp only [List.length_replicate] at hj1; omega :
                ¬ it.2.2 % pad + j < input.length)]
        · -- the tail, by the induction hypothesis at t0 + 1
          have hrest' : rest.map (fun it => it.2.2) =
              List.range' ((t0 + 1) * stride) m stride := by
            rw [hrest]; congr 1; ring
          apply ih m (t0 + 1) _ hrest'
          have hsucc : (t0 + 1) * stride = it.2.2 + stride := by rw [hpos]; ring
          by_cases hwrap : it.2.2 % pad + stride = pad
          · left
            rw [hsucc, hmodsucc, hwrap, Nat.mod_self]
          · right
            rw [hsucc, hmodsucc,
              Nat.mod_eq_of_lt (by omega : it.2.2 % pad + stride < pad)]
            by_cases hrd : it.2.2 % pad < input.length
            · rw [if_pos hrd, hfp0]
              simp only [List.length_take, List.length_drop]
              omega
            · rw [if_neg hrd, hfp0]
              simp only [List.length_nil, Nat.add_zero]
              omega

/-- The complete run, in closed form: under the divisibility side
conditions every written buffer is `mkSpec` of its absolute position. -/
theorem runTrace_spec (c : Config) (input : List Nat)
    (hs : 0 < stride c) (hpad : 0 < c.paduptosize)
    (hdp : stride c ∣ c.paduptosize) (hdr : stride c ∣ c.romsize) :
    runTrace c input =
      (iterList c).map fun it => (it, mkSpec input (stride c) c.paduptosize it.2.2) := by
  unfold runTrace
  apply traceAux_spec input (stride c) c.paduptosize hs hpad hdp (iterList c)
    (c.rombanks * (numRows c * romsperbank c)) 0 0
  · rw [Nat.zero_mul]
    exact iterList_pos_chain c hs hdr
  · left
    simp

/-! ### Validation, and output names -/

theorem validConfig_iff (c : Config) :
    validConfig c ↔ (c.rombanks ≤ MAXBANKS ∧ c.romwidth % 8 = 0 ∧
      c.romwidth ≤ MAXROMWIDTH ∧ c.numroms % c.rombanks = 0 ∧
      c.numroms ≤ MAXROMS) := by
  unfold validConfig checkConfig MAXBANKS MAXROMWIDTH MAXROMS
  split_ifs with h1 h2 h3 h4 h5 <;> simp <;> omega

theorem string_append_right_cancel (a s t : String) (h : a ++ s = a ++ t) :
    s = t := by
  apply String.ext
  have hd := congrArg String.data h
  rw [String.data_append, String.data_append] at hd
  exact List.append_cancel_left hd

theorem natStr_inj16 : ∀ r1 < 16, ∀ r2 < 16,
    (toString r1 : String) = toString r2 → r1 = r2 := by decide

theorem pairStr_inj_b : ∀ b1 < 4, ∀ r1 < 16, ∀ b2 < 4, ∀ r2 < 16,
    (toString b1 ++ "." ++ toString r1 : String) =
      toString b2 ++ "." ++ toString r2 → b1 = b2 := by decide

theorem pairStr_inj_r : ∀ b1 < 4, ∀ r1 < 16, ∀ b2 < 4, ∀ r2 < 16,
    (toString b1 ++ "." ++ toString r1 : String) =
      toString b2 ++ "." ++ toString r2 → r1 = r2 := by decide

/-! ### Arithmetic corollaries of the chain structure -/

theorem mod_add_stride_le (stride pad pos : Nat) (hpad : 0 < pad)
    (hdp : stride ∣ pad) (hdvdpos : stride ∣ pos) : pos % pad + stride ≤ pad := by
  have hdvd_pr : stride ∣ pos % pad := (Nat.dvd_mod_iff hdp).mpr hdvdpos
  have hprlt : pos % pad < pad := Nat.mod_lt _ hpad
  have hd : stride ∣ pad - pos % pad := Nat.dvd_sub' hdp hdvd_pr
  have := Nat.le_of_dvd (by omega) hd
  omega

theorem mod_add_small (pad pos i : Nat) (h : pos % pad + i < pad) :
    (pos + i) % pad = pos % pad + i := by
  conv_lhs => rw [show pos + i = pos % pad + i + pad * (pos / pad) from by
    have := Nat.div_add_mod pos pad; omega]
  rw [Nat.add_mul_mod_self_left, Nat.mod_eq_of_lt h]

theorem iterList_pos_dvd (c : Config) (hs : 0 < stride c)
    (hdr : stride c ∣ c.romsize) {it : Nat × Nat × Nat}
    (hit : it ∈ iterList c) : stride c ∣ it.2.2 := by
  have hmem : it.2.2 ∈ (iterList c).map (fun it => it.2.2) :=
    List.mem_map_of_mem _ hit
  rw [iterList_pos_chain c hs hdr] at hmem
  obtain ⟨j, hj, hjeq⟩ := List.mem_range'.mp hmem
  exact ⟨j, by omega⟩

theorem runTrace_length_eq (c : Config) (input : List Nat) (hs : 0 < stride c)
    (hdr : stride c ∣ c.romsize) :
    (runTrace c input).length = c.rombanks * (numRows c * romsperbank c) := by
  unfold runTrace
  rw [length_traceAux]
  have h := congrArg List.length (iterList_pos_chain c hs hdr)
  simp only [List.length_map, List.length_range'] at h
  exact h

theorem runTrace_pos_getElem (c : Config) (input : List Nat) (hs : 0 < stride c)
    (hdr : stride c ∣ c.romsize) (j : Nat) (hj : j < (runTrace c input).length) :
    (runTrace c input)[j].1.2.2 = stride c * j := by
  have hcomp : (runTrace c input).map (fun e => e.1.2.2) =
      List.range' 0 (c.rombanks * (numRows c * romsperbank c)) (stride c) := by
    have h1 : (runTrace c input).map (fun e => e.1.2.2) =
        ((runTrace c input).map Prod.fst).map (fun it => it.2.2) := by
      rw [List.map_map]; rfl
    rw [h1]
    unfold runTrace
    rw [traceAux_map_fst, iterList_pos_chain c hs hdr]
  have hb : j < ((runTrace c input).map (fun e => e.1.2.2)).length := by
    simpa using hj
  have h2 : ((runTrace c input).map (fun e => e.1.2.2))[j] = stride c * j := by
    rw [List.getElem_of_eq hcomp hb, List.getElem_range']
    omega
  rw [List.getElem_map] at h2
  exact h2

theorem totalsz_eq_chain (c : Config) (hv : validConfig c) (hs : 0 < stride c)
    (hdr : stride c ∣ c.romsize) :
    c.rombanks * (numRows c * romsperbank c) * stride c = totalsz c := by
  have h := (validConfig_iff c).mp hv
  have hdvd : c.rombanks ∣ c.numroms := Nat.dvd_of_mod_eq_zero h.2.2.2.1
  have ht := banksz_tiled c hs hdr
  calc c.rombanks * (numRows c * romsperbank c) * stride c
      = c.rombanks * (stride c * (numRows c * romsperbank c)) := by ring
    _ = c.rombanks * banksz c := by rw [← ht]
    _ = c.rombanks * (c.romsize * (c.numroms / c.rombanks)) := rfl
    _ = c.romsize * (c.rombanks * (c.numroms / c.rombanks)) := by ring
    _ = c.romsize * c.numroms := by rw [Nat.mul_div_cancel' hdvd]
    _ = totalsz c := rfl

theorem getD_take_eq (l : List Nat) (pad off : Nat) (hoff : off < pad)
    (hlen : pad ≤ l.length) : (l.take pad).getD off 0 = l.getD off 0 := by
  rw [List.getD_eq_getElem _ _ (by rw [List.length_take_of_le hlen]; omega),
    List.getD_eq_getElem _ _ (by omega)]
  exact List.getElem_take _

/-! ## The claims -/

/-- **C1** (counterexample).  The claim says every accepted configuration
gives every output slot exactly `rom_size_bytes` bytes.  The accepted
configuration `numroms=1, romwidth=16, romsize=3, rombanks=1, pad=3`
(stride `2` does not divide `romsize = 3`) writes 4 bytes to its single
output slot: the row loop runs `⌈3/2⌉ = 2` iterations of 2 bytes each. -/
theorem C1_counterexample :
    validConfig (Config.mk 1 16 3 1 3) ∧
    (slotBytes (Config.mk 1 16 3 1 3) [1, 2, 3] 0 0).length ≠
      (Config.mk 1 16 3 1 3).romsize ∧
    (slotBytes (Config.mk 1 16 3 1 3) [1, 2, 3] 0 0).length = 4 ∧
    (Config.mk 1 16 3 1 3).romsize = 3 := by decide

/-- **C1** (amended).  For every configuration accepted by validation
whose stride is positive and divides `rom_size_bytes`, and every input,
each of the output slots (bank `b < rombanks`, ROM `r < romsperbank`)
receives exactly `rom_size_bytes` bytes — no more, no fewer. -/
theorem C1_slot_length (c : Config) (input : List Nat) (b r : Nat)
    (hv : validConfig c) (hs : 0 < stride c) (hdr : stride c ∣ c.romsize)
    (hb : b < c.rombanks) (hr : r < romsperbank c) :
    (slotBytes c input b r).length = c.romsize := by
  rw [slotBytes_length_eq_countP, countP_iterList c b r hb hr]
  obtain ⟨q, hq⟩ := hdr
  have hR : 0 < romsperbank c := lt_of_le_of_lt (Nat.zero_le r) hr
  have hstep : 0 < rowStep c := Nat.mul_pos hR hs
  have hq2 : banksz c = rowStep c * q := by
    unfold banksz rowStep; rw [hq]; ring
  rw [numRows_eq c q hstep hq2, hq]
  ring

/-- **C1** witness: scenario A (`numroms=2, romwidth=8, romsize=4,
rombanks=1, pad=8`), any slot gets exactly 4 bytes. -/
theorem C1_slot_length_witness :
    (slotBytes (Config.mk 2 8 4 1 8) [0, 1, 2, 3, 4, 5, 6, 7] 0 0).length =
      (Config.mk 2 8 4 1 8).romsize :=
  C1_slot_length (Config.mk 2 8 4 1 8) [0, 1, 2, 3, 4, 5, 6, 7] 0 0
    (by decide) (by decide) (by decide) (by decide) (by decide)

/-- **C2** (confirmed).  Scenario A: `numroms=2, romwidth=8, romsize=4,
num_banks=1`, `pad_up_to_size` defaulted to the total size `8`, input
`[0,1,2,3,4,5,6,7]`: output 0 is `[0,2,4,6]` and output 1 is
`[1,3,5,7]` — byte-interleaved across the two ROMs. -/
theorem C2_scenario_A :
    slotBytes (Config.mk 2 8 4 1 8) [0, 1, 2, 3, 4, 5, 6, 7] 0 0 = [0, 2, 4, 6] ∧
    slotBytes (Config.mk 2 8 4 1 8) [0, 1, 2, 3, 4, 5, 6, 7] 0 1 = [1, 3, 5, 7] := by
  decide

/-- **C3** (counterexample).  The claim asserts, for *every*
configuration, that a byte whose absolute position `pos` has
`pos % pad ≥ inputsize` is written as `0xFF`.  In the accepted
configuration `numroms=16, romwidth=32, romsize=5, rombanks=4, pad=14`
(stride `4` does not divide `romsize = 5`) the row loop overshoots each
bank and the bank boundary jumps the position backwards relative to the
input stream: with the 8-byte input `[1,…,8]`, the first iteration of
bank 1 (absolute position 20) writes the buffer `[5,6,7,8]`, whose byte
at offset 2 sits at absolute position 22 with `22 % 14 = 8 ≥ 8`, yet
equals `7`, not `0xFF`. -/
theorem C3_counterexample :
    validConfig (Config.mk 16 32 5 4 14) ∧
    ¬ (∀ e ∈ runTrace (Config.mk 16 32 5 4 14) [1, 2, 3, 4, 5, 6, 7, 8],
        ∀ i < stride (Config.mk 16 32 5 4 14),
        ([1, 2, 3, 4, 5, 6, 7, 8] : List Nat).length ≤
          (e.1.2.2 + i) % (Config.mk 16 32 5 4 14).paduptosize →
        e.2.getD i 0 = 255) := by decide

/-- **C3** (amended).  For every configuration whose stride is positive
and divides `rom_size_bytes` (so the loop's absolute positions advance
uniformly), and every input, every written byte whose absolute position
`pos` satisfies `pos % pad_up_to_size ≥ input_size_bytes` equals `0xFF`. -/
theorem C3_padding (c : Config) (input : List Nat) (hs : 0 < stride c)
    (hdr : stride c ∣ c.romsize) :
    ∀ e ∈ runTrace c input, ∀ i < stride c,
      input.length ≤ (e.1.2.2 + i) % c.paduptosize → e.2.getD i 0 = 255 := by
  have h := traceAux_padding input (stride c) c.paduptosize (iterList c)
    (c.rombanks * (numRows c * romsperbank c)) 0 0
    (by rw [Nat.zero_mul]; exact iterList_pos_chain c hs hdr)
    (Nat.zero_le _) (Or.inl (by simp))
  exact h

/-- **C3** witness: scenario B (`numroms=2, romwidth=8, romsize=4,
rombanks=1, pad=8`, 4-byte input): the byte at absolute position 4
(`4 % 8 = 4 ≥ 4`) is `0xFF`. -/
theorem C3_padding_witness :
    (((0, 0, 4), [255]) : (Nat × Nat × Nat) × List Nat).2.getD 0 0 = 255 :=
  C3_padding (Config.mk 2 8 4 1 8) [0, 1, 2, 3] (by decide) (by decide)
    ((0, 0, 4), [255]) (by decide) 0 (by decide) (by decide)

/-- **C4** (counterexample).  The claim says that whenever
`pad_up_to_size < total_size_bytes` the input reappears at the start of
every repeat window.  In the accepted configuration `numroms=1,
romwidth=16, romsize=6, rombanks=1, pad=3` (`pad = 3 < 6 = total`, but
the stride `2` does not divide `pad = 3`, so the loop never lands on the
window boundary and never rewinds there): with input `[1,2]` the buffer
written at absolute position 2 is `[0xFF, 0xFF]`, so the byte at
absolute position `3 = 1*pad + 0` — the start of repeat window 1 — is
`0xFF` and not `input[0] = 1`. -/
theorem C4_counterexample :
    validConfig (Config.mk 1 16 6 1 3) ∧
    (Config.mk 1 16 6 1 3).paduptosize < totalsz (Config.mk 1 16 6 1 3) ∧
    (((0, 0, 2), [255, 255]) : (Nat × Nat × Nat) × List Nat) ∈
      runTrace (Config.mk 1 16 6 1 3) [1, 2] ∧
    2 + 1 = 1 * (Config.mk 1 16 6 1 3).paduptosize + 0 ∧
    0 < ([1, 2] : List Nat).length ∧
    ([255, 255] : List Nat).getD 1 0 ≠ ([1, 2] : List Nat).getD 0 0 := by decide

/-- **C4** (amended).  For every configuration with
`pad_up_to_size < total_size_bytes` whose stride is positive and divides
both `pad_up_to_size` and `rom_size_bytes`, and which is accepted by
validation: (1) every written byte whose absolute position `pos` has
`pos % pad < inputsize` equals the input byte at offset `pos % pad` —
in particular the input's first `input_size_bytes` bytes reappear,
byte-for-byte, starting at every multiple of `pad_up_to_size`; and
(2) every absolute position below `total_size_bytes` is covered by a
written byte. -/
theorem C4_repetition (c : Config) (input : List Nat)
    (hv : validConfig c) (hs : 0 < stride c) (hpad : 0 < c.paduptosize)
    (hdp : stride c ∣ c.paduptosize) (hdr : stride c ∣ c.romsize)
    (hlt : c.paduptosize < totalsz c) :
    (∀ e ∈ runTrace c input, ∀ i < stride c,
        (e.1.2.2 + i) % c.paduptosize < input.length →
        e.2.getD i 0 = input.getD ((e.1.2.2 + i) % c.paduptosize) 0) ∧
    (∀ p < totalsz c, ∃ e ∈ runTrace c input, ∃ i < stride c,
        e.1.2.2 + i = p) := by
  constructor
  · intro e he i hi hcond
    rw [runTrace_spec c input hs hpad hdp hdr] at he
    obtain ⟨it, hit, rfl⟩ := List.mem_map.mp he
    dsimp only at hcond ⊢
    have hdvdpos : stride c ∣ it.2.2 := iterList_pos_dvd c hs hdr hit
    have hbound := mod_add_stride_le (stride c) c.paduptosize it.2.2 hpad hdp hdvdpos
    have hmod : (it.2.2 + i) % c.paduptosize = it.2.2 % c.paduptosize + i :=
      mod_add_small _ _ _ (by omega)
    rw [hmod] at hcond ⊢
    have hlenspec : (mkSpec input (stride c) c.paduptosize it.2.2).length = stride c := by
      simp [mkSpec]
    rw [List.getD_eq_getElem _ _ (by omega)]
    simp only [mkSpec, List.getElem_map, List.getElem_range]
    rw [if_pos hcond]
  · intro p hp
    have hN := totalsz_eq_chain c hv hs hdr
    have hlen := runTrace_length_eq c input hs hdr
    have hjlt : p / stride c < (runTrace c input).length := by
      rw [hlen, Nat.div_lt_iff_lt_mul hs]
      omega
    refine ⟨(runTrace c input)[p / stride c], List.getElem_mem hjlt,
      p % stride c, Nat.mod_lt _ hs, ?_⟩
    rw [runTrace_pos_getElem c input hs hdr _ hjlt]
    exact Nat.div_add_mod p (stride c)

/-- **C4** witness: `numroms=1, romwidth=8, romsize=4, rombanks=1,
pad=2 < 4 = total`, input `[7,8]`: the byte written at absolute
position 0 equals the input byte at offset `0 % 2`. -/
theorem C4_repetition_witness :
    (((0, 0, 0), [7]) : (Nat × Nat × Nat) × List Nat).2.getD 0 0 =
      ([7, 8] : List Nat).getD
        (((((0, 0, 0), [7]) : (Nat × Nat × Nat) × List Nat).1.2.2 + 0) %
          (Config.mk 1 8 4 1 2).paduptosize) 0 :=
  (C4_repetition (Config.mk 1 8 4 1 2) [7, 8] (by decide) (by decide) (by decide)
      (by decide) (by decide) (by decide)).1
    ((0, 0, 0), [7]) (by decide) 0 (by decide) (by decide)

/-- **C5** (counterexample).  The claim says any configuration with a
non-positive field fails validation.  The configuration `numroms=0,
romwidth=8, romsize=1, rombanks=1, pad=1` has a non-positive field, yet
the validation chain of romjak.c (lines 105-137) accepts it: the code
never checks any field for positivity. -/
theorem C5_counterexample :
    (Config.mk 0 8 1 1 1).numroms = 0 ∧ validConfig (Config.mk 0 8 1 1 1) := by
  decide

/-- **C5** (amended).  Validation accepts a configuration exactly when
the five checks of romjak.c lines 105-137 pass — `num_banks ≤ 4`,
`rom_width_bits` a multiple of 8 and ≤ 32, `num_roms` divisible by
`num_banks`, `num_roms ≤ 16`; configurations violating any of these are
rejected before the copy phase (and before any file is opened), but
positivity of the fields is not checked. -/
theorem C5_validation (c : Config) :
    validConfig c ↔ (c.rombanks ≤ MAXBANKS ∧ c.romwidth % 8 = 0 ∧
      c.romwidth ≤ MAXROMWIDTH ∧ c.numroms % c.rombanks = 0 ∧
      c.numroms ≤ MAXROMS) :=
  validConfig_iff c

/-- **C6** (code bug).  The per-bank output-handle table of romjak.c
line 181 is `FILE *outputs[MAXBANKS][MAXROMSPERBANK]` with
`MAXROMSPERBANK = MAXROMS/MAXBANKS = 4`, but validation accepts
`numroms=16, rombanks=1`, for which the copy loop indexes
`outputs[0][j]` for `j` up to `romsperbank - 1 = 15` — far beyond the
table's second dimension. -/
theorem C6_bound_violation :
    validConfig (Config.mk 16 8 4 1 64) ∧
    romsperbank (Config.mk 16 8 4 1 64) = 16 ∧
    MAXROMSPERBANK = 4 := by decide

/-- **C7** (code bug).  The claim says short writes and short reads
abort the run immediately.  The C loop body (lines 223-232) never
inspects the return values of `fread` and `fwrite`: the loop always
performs every planned iteration, whatever the input.  Concretely, for
`numroms=1, romwidth=16, romsize=4, pad=4` with a 1-byte input, the
very first `fread` asks for `stride = 2` bytes while only 1 remains — a
short read with `pos_repeat = 0 < inputsize` — yet the run completes
both iterations and writes 4 bytes, padding silently. -/
theorem C7_no_abort :
    (∀ (c : Config) (input : List Nat),
        (runTrace c input).map Prod.fst = iterList c) ∧
    (runTrace (Config.mk 1 16 4 1 4) [9]).length = 2 ∧
    slotBytes (Config.mk 1 16 4 1 4) [9] 0 0 = [9, 255, 255, 255] :=
  ⟨fun c input => traceAux_map_fst input (stride c) c.paduptosize (iterList c) 0,
    by decide, by decide⟩

/-- **C8** (confirmed).  For every configuration accepted by validation
the derived geometry satisfies exactly the stated equations, including
`bank_size_bytes * num_banks = total_size_bytes`. -/
theorem C8_geometry (c : Config) (hv : validConfig c) :
    stride c = c.romwidth / 8 ∧
    romsperbank c = c.numroms / c.rombanks ∧
    banksz c = c.romsize * romsperbank c ∧
    totalsz c = c.romsize * c.numroms ∧
    repeats c = c.romsize / c.paduptosize ∧
    banksz c * c.rombanks = totalsz c := by
  refine ⟨rfl, rfl, rfl, rfl, rfl, ?_⟩
  have h := (validConfig_iff c).mp hv
  have hdvd : c.rombanks ∣ c.numroms := Nat.dvd_of_mod_eq_zero h.2.2.2.1
  unfold banksz totalsz romsperbank
  rw [Nat.mul_assoc, Nat.div_mul_cancel hdvd]

/-- **C8** witness: scenario A's geometry, in particular
`banksz * rombanks = totalsz`. -/
theorem C8_geometry_witness :
    banksz (Config.mk 2 8 4 1 8) * (Config.mk 2 8 4 1 8).rombanks =
      totalsz (Config.mk 2 8 4 1 8) :=
  (C8_geometry (Config.mk 2 8 4 1 8) (by decide)).2.2.2.2.2

/-- **C9** (confirmed).  The output-name generator (romjak.c lines
155-166) produces `"{base}.{rom}"` when `num_banks = 1` and
`"{base}.{bank}.{rom}"` otherwise (this is the definition of
`output_name`), and over the `(bank, rom)` domain of any configuration
accepted by validation it is injective, so no two slots receive the
same name. -/
theorem C9_output_name_injective (base : String) (c : Config)
    (hv : validConfig c) (b1 r1 b2 r2 : Nat)
    (hb1 : b1 < c.rombanks) (hr1 : r1 < romsperbank c)
    (hb2 : b2 < c.rombanks) (hr2 : r2 < romsperbank c)
    (heq : output_name base c b1 r1 = output_name base c b2 r2) :
    b1 = b2 ∧ r1 = r2 := by
  have h := (validConfig_iff c).mp hv
  have hR : romsperbank c ≤ 16 :=
    le_trans (Nat.div_le_self _ _) h.2.2.2.2
  have hr1' : r1 < 16 := lt_of_lt_of_le hr1 hR
  have hr2' : r2 < 16 := lt_of_lt_of_le hr2 hR
  unfold output_name at heq
  by_cases h1 : c.rombanks = 1
  · simp only [if_pos h1] at heq
    have hr := natStr_inj16 r1 hr1' r2 hr2'
      (string_append_right_cancel (base ++ ".") _ _ heq)
    omega
  · simp only [if_neg h1] at heq
    have hsplit : ∀ (sb sr : String),
        base ++ "." ++ sb ++ "." ++ sr = (base ++ ".") ++ (sb ++ "." ++ sr) := by
      intro sb sr
      rw [String.append_assoc (base ++ ".") sb ".",
        String.append_assoc (base ++ ".") (sb ++ ".") sr]
    rw [hsplit, hsplit] at heq
    have heq2 := string_append_right_cancel (base ++ ".") _ _ heq
    have hb1' : b1 < 4 := lt_of_lt_of_le hb1 h.1
    have hb2' : b2 < 4 := lt_of_lt_of_le hb2 h.1
    exact ⟨pairStr_inj_b b1 hb1' r1 hr1' b2 hb2' r2 hr2' heq2,
      pairStr_inj_r b1 hb1' r1 hr1' b2 hb2' r2 hr2' heq2⟩

/-- **C9** witness: a two-bank configuration, slot `(1,1)`. -/
theorem C9_output_name_injective_witness : (1 : Nat) = 1 ∧ (1 : Nat) = 1 :=
  C9_output_name_injective "rom" (Config.mk 4 8 2 2 8) (by decide) 1 1 1 1
    (by decide) (by decide) (by decide) (by decide) rfl

/-- **C10** (counterexample).  The claim says that when
`pad_up_to_size` is a multiple of `romsperbank * stride` and the input
is at least `pad_up_to_size` long, outputs depend only on the input's
first `pad_up_to_size` bytes.  The accepted configuration `numroms=2,
romwidth=16, romsize=3, rombanks=2, pad=2` satisfies the premises
(`pad = 2 = romsperbank * stride`), yet the inputs `[9,9]` and
`[9,9,5]`, which agree on their first 2 bytes, give different bytes in
output slot `(1,0)`: the stride `2` does not divide `romsize = 3`, the
banks overlap, and the file position drifts past the padding window. -/
theorem C10_counterexample :
    validConfig (Config.mk 2 16 3 2 2) ∧
    (Config.mk 2 16 3 2 2).paduptosize %
      (romsperbank (Config.mk 2 16 3 2 2) * stride (Config.mk 2 16 3 2 2)) = 0 ∧
    (Config.mk 2 16 3 2 2).paduptosize ≤ ([9, 9] : List Nat).length ∧
    (Config.mk 2 16 3 2 2).paduptosize ≤ ([9, 9, 5] : List Nat).length ∧
    ([9, 9] : List Nat).take (Config.mk 2 16 3 2 2).paduptosize =
      ([9, 9, 5] : List Nat).take (Config.mk 2 16 3 2 2).paduptosize ∧
    slotBytes (Config.mk 2 16 3 2 2) [9, 9] 1 0 ≠
      slotBytes (Config.mk 2 16 3 2 2) [9, 9, 5] 1 0 := by decide

/-- **C10** (amended).  For every configuration in which
`pad_up_to_size` is a positive multiple of `romsperbank * stride`, the
stride is positive and divides `rom_size_bytes`, and both inputs are at
least `pad_up_to_size` bytes long and agree on their first
`pad_up_to_size` bytes, every output slot receives byte-identical
contents: the tail of the input beyond `pad_up_to_size` never
influences any output. -/
theorem C10_independence (c : Config) (inA inB : List Nat)
    (hs : 0 < stride c) (hpad : 0 < c.paduptosize)
    (hmul : c.paduptosize % rowStep c = 0) (hdr : stride c ∣ c.romsize)
    (hA : c.paduptosize ≤ inA.length) (hB : c.paduptosize ≤ inB.length)
    (hagree : inA.take c.paduptosize = inB.take c.paduptosize) :
    ∀ b r, slotBytes c inA b r = slotBytes c inB b r := by
  intro b r
  have hdp : stride c ∣ c.paduptosize :=
    dvd_trans (dvd_mul_left (stride c) (romsperbank c))
      (Nat.dvd_of_mod_eq_zero hmul)
  have hmaps : ((iterList c).map fun it =>
        (it, mkSpec inA (stride c) c.paduptosize it.2.2)) =
      ((iterList c).map fun it =>
        (it, mkSpec inB (stride c) c.paduptosize it.2.2)) := by
    apply List.map_congr_left
    intro it hit
    have hdvdpos : stride c ∣ it.2.2 := iterList_pos_dvd c hs hdr hit
    have hbound := mod_add_stride_le (stride c) c.paduptosize it.2.2 hpad hdp hdvdpos
    have hspec : mkSpec inA (stride c) c.paduptosize it.2.2 =
        mkSpec inB (stride c) c.paduptosize it.2.2 := by
      unfold mkSpec
      apply List.map_congr_left
      intro i hi
      rw [List.mem_range] at hi
      have hofflt : it.2.2 % c.paduptosize + i < c.paduptosize := by omega
      rw [if_pos (by omega : it.2.2 % c.paduptosize + i < inA.length),
        if_pos (by omega : it.2.2 % c.paduptosize + i < inB.length)]
      rw [← getD_take_eq inA c.paduptosize _ (by omega) hA,
        ← getD_take_eq inB c.paduptosize _ (by omega) hB, hagree]
    rw [hspec]
  unfold slotBytes
  rw [runTrace_spec c inA hs hpad hdp hdr, runTrace_spec c inB hs hpad hdp hdr,
    hmaps]

/-- **C10** witness: `numroms=1, romwidth=8, romsize=4, pad=2`; the
inputs `[7,8]` and `[7,8,9]` agree on their first 2 bytes and produce
the same (only) output slot. -/
theorem C10_independence_witness :
    slotBytes (Config.mk 1 8 4 1 2) [7, 8] 0 0 =
      slotBytes (Config.mk 1 8 4 1 2) [7, 8, 9] 0 0 :=
  C10_independence (Config.mk 1 8 4 1 2) [7, 8] [7, 8, 9] (by decide) (by decide)
    (by decide) (by decide) (by decide) (by decide) (by decide) 0 0

end Romjak
